/-
Verification of the gauge metric in tensorstore/internal/metrics/gauge.h.

The file embeds, as Lean functions, the two cell specializations
`GaugeCell<int64_t>` and `GaugeCell<double>` and the `Gauge<T, Fields...>`
facade.  Machine `int64_t` values are modelled as integers in
[-2^63, 2^63) with explicit reduction modulo 2^64 where the source's
arithmetic wraps (`std::atomic<int64_t>::fetch_add` is defined to wrap).
`double` values are modelled as rationals: every concrete double value
appearing in the claims (0, 1, 3, 3.5, ...) and every addition performed on
them is exact in IEEE-754 binary64, so no rounding is abstracted away in
any statement proved below; the implicit C++ conversion from double to the
`int64_t` parameter of `GaugeCell<double>::DecrementBy` truncates toward
zero and is modelled by `doubleToInt64`.

The field-keyed cell store (`AbstractMetric` of metric_impl.h), the
`CollectedMetric` record (collect.h) and `MetricMetadata` (metadata.h) are
not part of the sources; they are modelled from the specification's
interface contracts (create-once-per-key lookup that never removes cells,
enumeration of all cells, an opaque metadata value, and the snapshot
shape).
-/
import Mathlib

namespace TensorstoreGauge

/-! ### int64 arithmetic -/

/-- The set of values representable by a C++ `int64_t`. -/
def isInt64 (z : ℤ) : Prop := -(2 ^ 63) ≤ z ∧ z < 2 ^ 63

instance (z : ℤ) : Decidable (isInt64 z) := by unfold isInt64; infer_instance

/-- Reduction of an integer modulo 2^64 into the signed 64-bit range
[-2^63, 2^63), i.e. the value obtained by two's-complement wraparound. -/
def wrap64 (z : ℤ) : ℤ := (z + 2 ^ 63) % 2 ^ 64 - 2 ^ 63

/-- Negation of an `int64_t` (wraps at `INT64_MIN`). -/
def int64Neg (z : ℤ) : ℤ := wrap64 (-z)

theorem wrap64_isInt64 (z : ℤ) : isInt64 (wrap64 z) := by
  unfold isInt64 wrap64
  have h : (0 : ℤ) ≤ (z + 2 ^ 63) % 2 ^ 64 ∧ (z + 2 ^ 63) % 2 ^ 64 < 2 ^ 64 := by
    constructor
    · exact Int.emod_nonneg _ (by norm_num)
    · exact Int.emod_lt_of_pos _ (by norm_num)
  omega

theorem wrap64_emod (z : ℤ) : wrap64 z % 2 ^ 64 = z % 2 ^ 64 := by
  unfold wrap64
  omega

theorem wrap64_eq_self {z : ℤ} (h : isInt64 z) : wrap64 z = z := by
  unfold isInt64 at h
  unfold wrap64
  omega

theorem int64_eq_of_emod {a b : ℤ} (ha : isInt64 a) (hb : isInt64 b)
    (h : a % 2 ^ 64 = b % 2 ^ 64) : a = b := by
  unfold isInt64 at ha hb
  omega

/-- Truncation toward zero, as in the implicit C++ conversion from `double`
to `int64_t` (defined whenever the truncated value is in range). -/
def doubleToInt64 (q : ℚ) : ℤ := if 0 ≤ q then ⌊q⌋ else ⌈q⌉

/-! ### GaugeCell specializations

A cell is just its `value_` member; each member function is embedded as a
function from the prior `value_` (and the argument) to the new `value_`.
The atomic retry loop of `GaugeCell<double>::IncrementBy` has, in any
sequential execution, the sole effect of one successful compare-exchange,
i.e. `value_ ← value_ + value`. -/

namespace GaugeCellInt64

/-- Embeds `GaugeCell<int64_t>::IncrementBy`: `value_.fetch_add(value)`, which
wraps modulo 2^64. -/
def IncrementBy (value_ value : ℤ) : ℤ := wrap64 (value_ + value)

/-- Embeds `GaugeCell<int64_t>::DecrementBy(value)`: `IncrementBy(-value)`, the
negation being an `int64_t` negation. -/
def DecrementBy (value_ value : ℤ) : ℤ := IncrementBy value_ (int64Neg value)

/-- Embeds `GaugeCell<int64_t>::Set`: `value_ = value`. -/
def Set (value : ℤ) : ℤ := wrap64 value

/-- Embeds `GaugeCell<int64_t>::Get`: returns `value_`. -/
def Get (value_ : ℤ) : ℤ := value_

/-- The default-constructed cell: `std::atomic<int64_t> value_{0}`. -/
def init : ℤ := 0

end GaugeCellInt64

namespace GaugeCellDouble

/-- Embeds `GaugeCell<double>::IncrementBy(double value)`: the compare-exchange
retry loop replaces `value_` by `value_ + value`. -/
def IncrementBy (value_ value : ℚ) : ℚ := value_ + value

/-- Embeds `GaugeCell<double>::DecrementBy(int64_t value)`: `IncrementBy(-value)`.
Note the parameter type: the argument is an `int64_t`, negated as an
`int64_t` and then converted (exactly, for the magnitudes below 2^53 used
in this development) to `double` for the addition. -/
def DecrementBy (value_ : ℚ) (value : ℤ) : ℚ :=
  IncrementBy value_ ((int64Neg value : ℤ) : ℚ)

/-- Embeds `GaugeCell<double>::Set`: `value_ = value`. -/
def Set (value : ℚ) : ℚ := value

/-- Embeds `GaugeCell<double>::Get`: returns `value_`. -/
def Get (value_ : ℚ) : ℚ := value_

/-- The default-constructed cell: `std::atomic<double> value_{0}`. -/
def init : ℚ := 0

end GaugeCellDouble

namespace GaugeTag

/-- Embeds `GaugeTag::kTag`, inherited by both cell specializations. -/
def kTag : String := "gauge"

end GaugeTag

/-! ### The field-keyed cell store

Modelled from the spec: metric_impl.h (`AbstractMetric`, the field-keyed
store behind `impl_`) is not among the sources.  Per the spec's interface
contract it supplies `GetCell` = get-or-create (create-once-per-key,
zero-initialized, never removing or relocating cells) and enumeration of
all (label tuple, cell) pairs.  The store is an association list keyed by
label tuple, new cells being appended; the spec leaves the enumeration
order unspecified. -/

/-- The label tuples that currently have a cell, in store order. -/
def keys {F V : Type} (cells : List (F × V)) : List F := cells.map Prod.fst

/-- Modelled from the spec: `GetCell` on the store — returns the value of
the cell for `l`, creating a `zero`-valued cell if absent, together with
the updated store. -/
def getCell {F V : Type} [DecidableEq F] (zero : V) :
    List (F × V) → F → V × List (F × V)
  | [], l => (zero, [(l, zero)])
  | (k, v) :: rest, l =>
    if k = l then (v, (k, v) :: rest)
    else
      let p := getCell zero rest l
      (p.1, (k, v) :: p.2)

/-- Modelled from the spec: `GetCell` followed by a mutation `f` of the
resolved cell (the combined effect of `impl_.GetCell(labels...)->Op(...)`). -/
def withCell {F V : Type} [DecidableEq F] (zero : V) (f : V → V) :
    List (F × V) → F → List (F × V)
  | [], l => [(l, f zero)]
  | (k, v) :: rest, l =>
    if k = l then (k, f v) :: rest
    else (k, v) :: withCell zero f rest l

theorem getCell_fst_of_not_mem {F V : Type} [DecidableEq F] (zero : V)
    {cells : List (F × V)} {l : F} (h : l ∉ keys cells) :
    (getCell zero cells l).1 = zero := by
  induction cells with
  | nil => simp [getCell]
  | cons kv rest ih =>
    obtain ⟨k, v⟩ := kv
    simp only [keys, List.map_cons, List.mem_cons] at h
    push_neg at h
    have hkl : ¬k = l := fun hh => h.1 hh.symm
    simpa [getCell, hkl] using ih h.2

theorem getCell_snd_of_not_mem {F V : Type} [DecidableEq F] (zero : V)
    {cells : List (F × V)} {l : F} (h : l ∉ keys cells) :
    (getCell zero cells l).2 = cells ++ [(l, zero)] := by
  induction cells with
  | nil => simp [getCell]
  | cons kv rest ih =>
    obtain ⟨k, v⟩ := kv
    simp only [keys, List.map_cons, List.mem_cons] at h
    push_neg at h
    have hkl : ¬k = l := fun hh => h.1 hh.symm
    simpa [getCell, hkl] using ih h.2

theorem getCell_snd_of_mem {F V : Type} [DecidableEq F] (zero : V)
    {cells : List (F × V)} {l : F} (h : l ∈ keys cells) :
    (getCell zero cells l).2 = cells := by
  induction cells with
  | nil => simp [keys] at h
  | cons kv rest ih =>
    obtain ⟨k, v⟩ := kv
    by_cases hkl : k = l
    · simp [getCell, hkl]
    · simp only [keys, List.map_cons, List.mem_cons] at h
      rcases h with h | h
      · exact absurd h.symm hkl
      · simp only [getCell, if_neg hkl, List.cons.injEq, true_and]
        exact ih h

theorem withCell_of_not_mem {F V : Type} [DecidableEq F] (zero : V) (f : V → V)
    {cells : List (F × V)} {l : F} (h : l ∉ keys cells) :
    withCell zero f cells l = cells ++ [(l, f zero)] := by
  induction cells with
  | nil => simp [withCell]
  | cons kv rest ih =>
    obtain ⟨k, v⟩ := kv
    simp only [keys, List.map_cons, List.mem_cons] at h
    push_neg at h
    have hkl : ¬k = l := fun hh => h.1 hh.symm
    simpa [withCell, hkl] using ih h.2

theorem keys_withCell_of_mem {F V : Type} [DecidableEq F] (zero : V) (f : V → V)
    {cells : List (F × V)} {l : F} (h : l ∈ keys cells) :
    keys (withCell zero f cells l) = keys cells := by
  induction cells with
  | nil => simp [keys] at h
  | cons kv rest ih =>
    obtain ⟨k, v⟩ := kv
    by_cases hkl : k = l
    · simp [withCell, hkl, keys]
    · simp only [keys, List.map_cons, List.mem_cons] at h
      rcases h with h | h
      · exact absurd h.symm hkl
      · have ihh := ih h
        simp only [keys, List.map] at ihh
        simp [withCell, hkl, keys, ihh]

theorem keys_withCell {F V : Type} [DecidableEq F] (zero : V) (f : V → V)
    (cells : List (F × V)) (l : F) :
    keys (withCell zero f cells l) =
      if l ∈ keys cells then keys cells else keys cells ++ [l] := by
  by_cases h : l ∈ keys cells
  · rw [keys_withCell_of_mem zero f h, if_pos h]
  · rw [withCell_of_not_mem zero f h, if_neg h]
    simp [keys]

theorem keys_getCell_snd {F V : Type} [DecidableEq F] (zero : V)
    (cells : List (F × V)) (l : F) :
    keys (getCell zero cells l).2 =
      if l ∈ keys cells then keys cells else keys cells ++ [l] := by
  by_cases h : l ∈ keys cells
  · rw [getCell_snd_of_mem zero h, if_pos h]
  · rw [getCell_snd_of_not_mem zero h, if_neg h]
    simp [keys]

theorem getCell_fst_withCell_same {F V : Type} [DecidableEq F] (zero : V)
    (f : V → V) (cells : List (F × V)) (l : F) :
    (getCell zero (withCell zero f cells l) l).1 = f (getCell zero cells l).1 := by
  induction cells with
  | nil => simp [getCell, withCell]
  | cons kv rest ih =>
    obtain ⟨k, v⟩ := kv
    by_cases hkl : k = l
    · simp [getCell, withCell, hkl]
    · simp [getCell, withCell, hkl, ih]

theorem getCell_fst_withCell_other {F V : Type} [DecidableEq F] (zero : V)
    (f : V → V) (cells : List (F × V)) {l k : F} (h : k ≠ l) :
    (getCell zero (withCell zero f cells l) k).1 = (getCell zero cells k).1 := by
  have hlk : ¬l = k := fun hh => h hh.symm
  induction cells with
  | nil => simp [getCell, withCell, hlk]
  | cons kv rest ih =>
    obtain ⟨k', v⟩ := kv
    by_cases hkl : k' = l
    · subst hkl
      have h2 : ¬k' = k := fun hh => h hh.symm
      simp [getCell, withCell, h2]
    · by_cases hkk : k' = k
      · subst hkk
        simp [getCell, withCell, hkl]
      · simp [getCell, withCell, hkl, hkk, ih]

/-! ### The Gauge facade -/

/-- Modelled from the spec: `MetricMetadata` (metadata.h) is not among the
sources; it is an opaque descriptive value carried through construction and
exposed verbatim. -/
structure MetricMetadata where
  description : String
  deriving DecidableEq

/-- Modelled from the spec: one snapshot entry of `CollectedMetric`
(collect.h is not among the sources) — the per-field display strings, in
field order, and the cell's value (`CollectedMetric::Metric`). -/
structure CollectedMetric.Metric (V : Type) where
  fields : List String
  value : V
  deriving DecidableEq

/-- Modelled from the spec: the snapshot record filled in by
`Gauge::Collect` (collect.h is not among the sources) — instrument tag,
metric name, metadata, ordered field names, and the gauge entries. -/
structure CollectedMetric (V : Type) where
  tag : String
  metric_name : String
  metadata : MetricMetadata
  field_names : List String
  gauges : List (CollectedMetric.Metric V)
  deriving DecidableEq

/-- The state of a `Gauge<T, Fields...>`: the name / field names / metadata
fixed at construction, and the cells of the field-keyed store (`impl_`),
keyed by label tuple `F`, holding values of type `V` (ℤ models `int64_t`,
ℚ models `double`). -/
structure Gauge (V F : Type) where
  metric_name : String
  field_names : List String
  metadata : MetricMetadata
  cells : List (F × V)

/-- Embeds `Gauge::Allocate` / the private constructor: no cells exist yet. -/
def Gauge.Allocate (V F : Type) (metric_name : String)
    (field_names : List String) (metadata : MetricMetadata) : Gauge V F :=
  ⟨metric_name, field_names, metadata, []⟩

/-- Embeds `Gauge::Collect`, parameterized by `render`, the stringification of a
label tuple into one display string per field (the fold of
`tensorstore::StrCat` over the tuple's items; str_cat.h is not among the
sources, and for a single string-valued field it is the identity). -/
def Gauge.Collect {V F : Type} (g : Gauge V F) (render : F → List String) :
    CollectedMetric V :=
  { tag := GaugeTag.kTag
    metric_name := g.metric_name
    metadata := g.metadata
    field_names := g.field_names
    gauges := g.cells.map fun kv => ⟨render kv.1, kv.2⟩ }

/-- Replace the cell store of a gauge (the name, field names and metadata
are untouched by every cell operation). -/
def Gauge.withCells {V F : Type} (g : Gauge V F) (cells : List (F × V)) : Gauge V F :=
  ⟨g.metric_name, g.field_names, g.metadata, cells⟩

namespace IntGauge

variable {F : Type} [DecidableEq F]

/-- Embeds `Gauge<int64_t>::IncrementBy`: `impl_.GetCell(labels...)->IncrementBy(value)`. -/
def IncrementBy (g : Gauge ℤ F) (value : ℤ) (labels : F) : Gauge ℤ F :=
  Gauge.withCells g
    (      withCell GaugeCellInt64.init (fun c => GaugeCellInt64.IncrementBy c value)
      g.cells labels)

/-- Embeds `Gauge<int64_t>::Increment`: `impl_.GetCell(labels...)->IncrementBy(1)`. -/
def Increment (g : Gauge ℤ F) (labels : F) : Gauge ℤ F :=
  Gauge.withCells g
    (      withCell GaugeCellInt64.init (fun c => GaugeCellInt64.IncrementBy c 1)
      g.cells labels)

/-- Embeds `Gauge<int64_t>::DecrementBy`: `impl_.GetCell(labels...)->DecrementBy(value)`. -/
def DecrementBy (g : Gauge ℤ F) (value : ℤ) (labels : F) : Gauge ℤ F :=
  Gauge.withCells g
    (      withCell GaugeCellInt64.init (fun c => GaugeCellInt64.DecrementBy c value)
      g.cells labels)

/-- Embeds `Gauge<int64_t>::Decrement`: `impl_.GetCell(labels...)->DecrementBy(1)`. -/
def Decrement (g : Gauge ℤ F) (labels : F) : Gauge ℤ F :=
  Gauge.withCells g
    (      withCell GaugeCellInt64.init (fun c => GaugeCellInt64.DecrementBy c 1)
      g.cells labels)

/-- Embeds `Gauge<int64_t>::Set`: `impl_.GetCell(labels...)->Set(value)`. -/
def Set (g : Gauge ℤ F) (value : ℤ) (labels : F) : Gauge ℤ F :=
  Gauge.withCells g
    (      withCell GaugeCellInt64.init (fun _ => GaugeCellInt64.Set value)
      g.cells labels)

/-- Embeds `Gauge<int64_t>::Get`: `impl_.GetCell(labels...)->Get()`.  Resolving
the cell creates it if absent, so the (conceptually const) read also
yields the updated store. -/
def Get (g : Gauge ℤ F) (labels : F) : ℤ × Gauge ℤ F :=
  let p := getCell GaugeCellInt64.init g.cells labels
  (GaugeCellInt64.Get p.1, { g with cells := p.2 })

end IntGauge

namespace DoubleGauge

variable {F : Type} [DecidableEq F]

/-- Embeds `Gauge<double>::IncrementBy`: `impl_.GetCell(labels...)->IncrementBy(value)`. -/
def IncrementBy (g : Gauge ℚ F) (value : ℚ) (labels : F) : Gauge ℚ F :=
  Gauge.withCells g
    (      withCell GaugeCellDouble.init (fun c => GaugeCellDouble.IncrementBy c value)
      g.cells labels)

/-- Embeds `Gauge<double>::Increment`: `impl_.GetCell(labels...)->IncrementBy(1)`. -/
def Increment (g : Gauge ℚ F) (labels : F) : Gauge ℚ F :=
  Gauge.withCells g
    (      withCell GaugeCellDouble.init (fun c => GaugeCellDouble.IncrementBy c 1)
      g.cells labels)

/-- Embeds `Gauge<double>::DecrementBy(value_type value, ...)`: the `double`
argument is passed to `GaugeCell<double>::DecrementBy(int64_t)`, so it is
converted to `int64_t` (truncation toward zero) at the call. -/
def DecrementBy (g : Gauge ℚ F) (value : ℚ) (labels : F) : Gauge ℚ F :=
  Gauge.withCells g
    (      withCell GaugeCellDouble.init
        (fun c => GaugeCellDouble.DecrementBy c (doubleToInt64 value))
      g.cells labels)

/-- Embeds `Gauge<double>::Decrement`: `impl_.GetCell(labels...)->DecrementBy(1)`. -/
def Decrement (g : Gauge ℚ F) (labels : F) : Gauge ℚ F :=
  Gauge.withCells g
    (      withCell GaugeCellDouble.init (fun c => GaugeCellDouble.DecrementBy c 1)
      g.cells labels)

/-- Embeds `Gauge<double>::Set`: `impl_.GetCell(labels...)->Set(value)`. -/
def Set (g : Gauge ℚ F) (value : ℚ) (labels : F) : Gauge ℚ F :=
  Gauge.withCells g
    (      withCell GaugeCellDouble.init (fun _ => GaugeCellDouble.Set value)
      g.cells labels)

/-- Embeds `Gauge<double>::Get`: `impl_.GetCell(labels...)->Get()`, the resolved
cell being created if absent. -/
def Get (g : Gauge ℚ F) (labels : F) : ℚ × Gauge ℚ F :=
  let p := getCell GaugeCellDouble.init g.cells labels
  (GaugeCellDouble.Get p.1, { g with cells := p.2 })

end DoubleGauge

/-! ### Sequential runs of public operations -/

/-- One invocation of a public mutating/reading operation of the gauge,
with its argument value (of the gauge's value type) and label tuple. -/
inductive GaugeOp (V F : Type) where
  | increment (labels : F)
  | incrementBy (value : V) (labels : F)
  | decrement (labels : F)
  | decrementBy (value : V) (labels : F)
  | set (value : V) (labels : F)
  | get (labels : F)

/-- The label tuple an operation addresses. -/
def GaugeOp.labels {V F : Type} : GaugeOp V F → F
  | .increment l => l
  | .incrementBy _ l => l
  | .decrement l => l
  | .decrementBy _ l => l
  | .set _ l => l
  | .get l => l

/-- Apply one operation to an integer gauge (the result of `get` is
discarded; only its cell-creating effect on the store remains). -/
def IntGauge.applyOp {F : Type} [DecidableEq F] (g : Gauge ℤ F) :
    GaugeOp ℤ F → Gauge ℤ F
  | .increment l => IntGauge.Increment g l
  | .incrementBy v l => IntGauge.IncrementBy g v l
  | .decrement l => IntGauge.Decrement g l
  | .decrementBy v l => IntGauge.DecrementBy g v l
  | .set v l => IntGauge.Set g v l
  | .get l => (IntGauge.Get g l).2

/-- Run a sequential series of operations on an integer gauge. -/
def IntGauge.runOps {F : Type} [DecidableEq F] (g : Gauge ℤ F)
    (ops : List (GaugeOp ℤ F)) : Gauge ℤ F :=
  ops.foldl IntGauge.applyOp g

/-- Apply one operation to a floating-point gauge. -/
def DoubleGauge.applyOp {F : Type} [DecidableEq F] (g : Gauge ℚ F) :
    GaugeOp ℚ F → Gauge ℚ F
  | .increment l => DoubleGauge.Increment g l
  | .incrementBy v l => DoubleGauge.IncrementBy g v l
  | .decrement l => DoubleGauge.Decrement g l
  | .decrementBy v l => DoubleGauge.DecrementBy g v l
  | .set v l => DoubleGauge.Set g v l
  | .get l => (DoubleGauge.Get g l).2

/-- Run a sequential series of operations on a floating-point gauge. -/
def DoubleGauge.runOps {F : Type} [DecidableEq F] (g : Gauge ℚ F)
    (ops : List (GaugeOp ℚ F)) : Gauge ℚ F :=
  ops.foldl DoubleGauge.applyOp g

/-- Rendering of a single string-valued field: `StrCat` on a string is the
string itself, and the fields vector has that one entry. -/
def renderStringField (s : String) : List String := [s]

/-! ### Lemmas about runs of operations -/

theorem mem_keys_withCell {F V : Type} [DecidableEq F] (zero : V) (f : V → V)
    (cells : List (F × V)) (l l' : F) :
    l' ∈ keys (withCell zero f cells l) ↔ l' ∈ keys cells ∨ l' = l := by
  rw [keys_withCell]
  by_cases h : l ∈ keys cells
  · rw [if_pos h]
    constructor
    · exact Or.inl
    · rintro (h' | rfl)
      · exact h'
      · exact h
  · rw [if_neg h]
    simp

theorem mem_keys_getCell_snd {F V : Type} [DecidableEq F] (zero : V)
    (cells : List (F × V)) (l l' : F) :
    l' ∈ keys (getCell zero cells l).2 ↔ l' ∈ keys cells ∨ l' = l := by
  rw [keys_getCell_snd]
  by_cases h : l ∈ keys cells
  · rw [if_pos h]
    constructor
    · exact Or.inl
    · rintro (h' | rfl)
      · exact h'
      · exact h
  · rw [if_neg h]
    simp

theorem nodup_keys_withCell {F V : Type} [DecidableEq F] (zero : V) (f : V → V)
    {cells : List (F × V)} (l : F) (h : (keys cells).Nodup) :
    (keys (withCell zero f cells l)).Nodup := by
  rw [keys_withCell]
  by_cases hm : l ∈ keys cells
  · rwa [if_pos hm]
  · rw [if_neg hm]
    simp [List.nodup_append, h, hm]

theorem nodup_keys_getCell_snd {F V : Type} [DecidableEq F] (zero : V)
    {cells : List (F × V)} (l : F) (h : (keys cells).Nodup) :
    (keys (getCell zero cells l).2).Nodup := by
  rw [keys_getCell_snd]
  by_cases hm : l ∈ keys cells
  · rwa [if_pos hm]
  · rw [if_neg hm]
    simp [List.nodup_append, h, hm]

theorem IntGauge.keys_applyOp {F : Type} [DecidableEq F] (g : Gauge ℤ F)
    (o : GaugeOp ℤ F) :
    keys (IntGauge.applyOp g o).cells =
      if o.labels ∈ keys g.cells then keys g.cells
      else keys g.cells ++ [o.labels] := by
  cases o <;>
    simp [IntGauge.applyOp, IntGauge.Increment, IntGauge.IncrementBy,
      IntGauge.Decrement, IntGauge.DecrementBy, IntGauge.Set, IntGauge.Get,
      Gauge.withCells, GaugeOp.labels, keys_withCell, keys_getCell_snd]

theorem DoubleGauge.keys_applyOp_double {F : Type} [DecidableEq F] (g : Gauge ℚ F)
    (o : GaugeOp ℚ F) :
    keys (DoubleGauge.applyOp g o).cells =
      if o.labels ∈ keys g.cells then keys g.cells
      else keys g.cells ++ [o.labels] := by
  cases o <;>
    simp [DoubleGauge.applyOp, DoubleGauge.Increment, DoubleGauge.IncrementBy,
      DoubleGauge.Decrement, DoubleGauge.DecrementBy, DoubleGauge.Set,
      DoubleGauge.Get, Gauge.withCells, GaugeOp.labels, keys_withCell,
      keys_getCell_snd]

theorem IntGauge.mem_keys_applyOp {F : Type} [DecidableEq F] (g : Gauge ℤ F)
    (o : GaugeOp ℤ F) (l' : F) :
    l' ∈ keys (IntGauge.applyOp g o).cells ↔
      l' ∈ keys g.cells ∨ l' = o.labels := by
  rw [IntGauge.keys_applyOp]
  by_cases h : o.labels ∈ keys g.cells
  · rw [if_pos h]
    constructor
    · exact Or.inl
    · rintro (h' | rfl)
      · exact h'
      · exact h
  · rw [if_neg h]
    simp

theorem DoubleGauge.mem_keys_applyOp_double {F : Type} [DecidableEq F] (g : Gauge ℚ F)
    (o : GaugeOp ℚ F) (l' : F) :
    l' ∈ keys (DoubleGauge.applyOp g o).cells ↔
      l' ∈ keys g.cells ∨ l' = o.labels := by
  rw [DoubleGauge.keys_applyOp_double]
  by_cases h : o.labels ∈ keys g.cells
  · rw [if_pos h]
    constructor
    · exact Or.inl
    · rintro (h' | rfl)
      · exact h'
      · exact h
  · rw [if_neg h]
    simp

theorem IntGauge.nodup_keys_applyOp {F : Type} [DecidableEq F]
    {g : Gauge ℤ F} (o : GaugeOp ℤ F) (h : (keys g.cells).Nodup) :
    (keys (IntGauge.applyOp g o).cells).Nodup := by
  rw [IntGauge.keys_applyOp]
  by_cases hm : o.labels ∈ keys g.cells
  · rwa [if_pos hm]
  · rw [if_neg hm]
    simp [List.nodup_append, h, hm]

theorem IntGauge.mem_keys_runOps {F : Type} [DecidableEq F] (g : Gauge ℤ F)
    (ops : List (GaugeOp ℤ F)) (l' : F) :
    l' ∈ keys (IntGauge.runOps g ops).cells ↔
      l' ∈ keys g.cells ∨ ∃ o ∈ ops, o.labels = l' := by
  induction ops generalizing g with
  | nil => simp [IntGauge.runOps]
  | cons o rest ih =>
    have hstep : IntGauge.runOps g (o :: rest) =
        IntGauge.runOps (IntGauge.applyOp g o) rest := rfl
    rw [hstep, ih, IntGauge.mem_keys_applyOp]
    constructor
    · rintro ((h | h) | ⟨o', ho', h⟩)
      · exact Or.inl h
      · exact Or.inr ⟨o, List.mem_cons_self o rest, h.symm⟩
      · exact Or.inr ⟨o', List.mem_cons_of_mem o ho', h⟩
    · rintro (h | ⟨o', ho', h⟩)
      · exact Or.inl (Or.inl h)
      · rcases List.mem_cons.1 ho' with rfl | ho'
        · exact Or.inl (Or.inr h.symm)
        · exact Or.inr ⟨o', ho', h⟩

theorem IntGauge.nodup_keys_runOps {F : Type} [DecidableEq F] {g : Gauge ℤ F}
    (ops : List (GaugeOp ℤ F)) (h : (keys g.cells).Nodup) :
    (keys (IntGauge.runOps g ops).cells).Nodup := by
  induction ops generalizing g with
  | nil => exact h
  | cons o rest ih => exact ih (IntGauge.nodup_keys_applyOp o h)

theorem IntGauge.applyOp_preserves_header {F : Type} [DecidableEq F]
    (g : Gauge ℤ F) (o : GaugeOp ℤ F) :
    (IntGauge.applyOp g o).metric_name = g.metric_name ∧
    (IntGauge.applyOp g o).field_names = g.field_names ∧
    (IntGauge.applyOp g o).metadata = g.metadata := by
  cases o <;> exact ⟨rfl, rfl, rfl⟩

theorem IntGauge.runOps_preserves_header {F : Type} [DecidableEq F]
    (g : Gauge ℤ F) (ops : List (GaugeOp ℤ F)) :
    (IntGauge.runOps g ops).metric_name = g.metric_name ∧
    (IntGauge.runOps g ops).field_names = g.field_names ∧
    (IntGauge.runOps g ops).metadata = g.metadata := by
  induction ops generalizing g with
  | nil => exact ⟨rfl, rfl, rfl⟩
  | cons o rest ih =>
    have hstep : IntGauge.runOps g (o :: rest) =
        IntGauge.runOps (IntGauge.applyOp g o) rest := rfl
    rw [hstep]
    have h1 := ih (IntGauge.applyOp g o)
    have h2 := IntGauge.applyOp_preserves_header g o
    exact ⟨h1.1.trans h2.1, h1.2.1.trans h2.2.1, h1.2.2.trans h2.2.2⟩

theorem DoubleGauge.applyOp_preserves_header_double {F : Type} [DecidableEq F]
    (g : Gauge ℚ F) (o : GaugeOp ℚ F) :
    (DoubleGauge.applyOp g o).metric_name = g.metric_name ∧
    (DoubleGauge.applyOp g o).field_names = g.field_names ∧
    (DoubleGauge.applyOp g o).metadata = g.metadata := by
  cases o <;> exact ⟨rfl, rfl, rfl⟩

theorem DoubleGauge.runOps_preserves_header_double {F : Type} [DecidableEq F]
    (g : Gauge ℚ F) (ops : List (GaugeOp ℚ F)) :
    (DoubleGauge.runOps g ops).metric_name = g.metric_name ∧
    (DoubleGauge.runOps g ops).field_names = g.field_names ∧
    (DoubleGauge.runOps g ops).metadata = g.metadata := by
  induction ops generalizing g with
  | nil => exact ⟨rfl, rfl, rfl⟩
  | cons o rest ih =>
    have hstep : DoubleGauge.runOps g (o :: rest) =
        DoubleGauge.runOps (DoubleGauge.applyOp g o) rest := rfl
    rw [hstep]
    have h1 := ih (DoubleGauge.applyOp g o)
    have h2 := DoubleGauge.applyOp_preserves_header_double g o
    exact ⟨h1.1.trans h2.1, h1.2.1.trans h2.2.1, h1.2.2.trans h2.2.2⟩

theorem keys_mem_exists_entry {F V : Type} (g : Gauge V F)
    (render : F → List String) {l : F} (h : l ∈ keys g.cells) :
    ∃ v, (⟨render l, v⟩ : CollectedMetric.Metric V) ∈ (g.Collect render).gauges := by
  simp only [keys, List.mem_map] at h
  obtain ⟨⟨k, v⟩, hkv, rfl⟩ := h
  exact ⟨v, List.mem_map.2 ⟨(k, v), hkv, rfl⟩⟩

/-! ### The claims -/

/-- Claim C1, refuted at v = 3.5: on the int64 specialization `DecrementBy(v)`
does behave as `IncrementBy(-v)` (last conjunct: the new value is the
two's-complement value of `prior - v`), but on the double specialization
`DecrementBy` takes an `int64_t` parameter, so a cell at 0 given
`DecrementBy(3.5)` truncates the argument to 3 and ends at -3 — both at
cell level and through `Gauge<double>::DecrementBy` — whereas
`IncrementBy(-3.5)` ends at -3.5, and -3 ≠ -3.5. -/
theorem double_decrementBy_truncates_counterexample :
    GaugeCellDouble.DecrementBy (0 : ℚ) (doubleToInt64 (3.5 : ℚ)) = -3 ∧
    GaugeCellDouble.IncrementBy (0 : ℚ) (-(3.5 : ℚ)) = -3.5 ∧
    (DoubleGauge.Get
      (DoubleGauge.DecrementBy
        ((Gauge.Allocate ℚ Unit ("/my/cpu/temperature") [] ⟨("temp")⟩)) 3.5 ()) ()).1
      = -3 ∧
    ((-3 : ℚ) ≠ -3.5) ∧
    (∀ p v : ℤ, GaugeCellInt64.DecrementBy p v = wrap64 (p - v)) := by
  refine ⟨?_, ?_, ?_, by norm_num, ?_⟩
  · norm_num [GaugeCellDouble.DecrementBy, GaugeCellDouble.IncrementBy,
      doubleToInt64, int64Neg, wrap64]
  · norm_num [GaugeCellDouble.IncrementBy]
  · norm_num [DoubleGauge.Get, DoubleGauge.DecrementBy, Gauge.Allocate,
      Gauge.withCells, getCell, withCell, GaugeCellDouble.Get,
      GaugeCellDouble.IncrementBy, GaugeCellDouble.DecrementBy,
      GaugeCellDouble.init, doubleToInt64, int64Neg, wrap64]
  · intro p v
    unfold GaugeCellInt64.DecrementBy GaugeCellInt64.IncrementBy int64Neg
    apply int64_eq_of_emod (wrap64_isInt64 _) (wrap64_isInt64 _)
    have h1 := wrap64_emod (p + wrap64 (-v))
    have h2 := wrap64_emod (-v)
    have h3 := wrap64_emod (p - v)
    omega

/-- Claim C3: after a sequential series of operations touching exactly the
label tuples A and B (A ≠ B), `Collect()` returns exactly two entries, one
per tuple; and in the concrete scenario of an integer gauge with one
string field — Set(10, "a"); IncrementBy(5, "a"); Set(3, "b") — the entry
set is exactly ("a", 15) and ("b", 3). -/
theorem collect_completeness {F : Type} [DecidableEq F] (A B : F)
    (name : String) (fns : List String) (md : MetricMetadata)
    (render : F → List String) (ops : List (GaugeOp ℤ F))
    (hAB : A ≠ B)
    (htouch : ∀ o ∈ ops, o.labels = A ∨ o.labels = B)
    (hA : ∃ o ∈ ops, o.labels = A) (hB : ∃ o ∈ ops, o.labels = B) :
    (((IntGauge.runOps (Gauge.Allocate ℤ F name fns md) ops).Collect
        render).gauges.length = 2 ∧
      (∃ v, (⟨render A, v⟩ : CollectedMetric.Metric ℤ) ∈
        ((IntGauge.runOps (Gauge.Allocate ℤ F name fns md) ops).Collect
          render).gauges) ∧
      (∃ v, (⟨render B, v⟩ : CollectedMetric.Metric ℤ) ∈
        ((IntGauge.runOps (Gauge.Allocate ℤ F name fns md) ops).Collect
          render).gauges)) ∧
    ((IntGauge.Set (IntGauge.IncrementBy (IntGauge.Set
        (Gauge.Allocate ℤ String ("/gauge/example") [("field")] ⟨("meta")⟩)
        10 ("a")) 5 ("a")) 3 ("b")).Collect renderStringField).gauges =
      [⟨[("a")], 15⟩, ⟨[("b")], 3⟩] := by
  have hmem : ∀ l', l' ∈ keys (IntGauge.runOps
      (Gauge.Allocate ℤ F name fns md) ops).cells ↔ l' = A ∨ l' = B := by
    intro l'
    rw [IntGauge.mem_keys_runOps]
    constructor
    · rintro (h | ⟨o, ho, rfl⟩)
      · simp [Gauge.Allocate, keys] at h
      · exact htouch o ho
    · rintro (rfl | rfl)
      · obtain ⟨o, ho, h⟩ := hA
        exact Or.inr ⟨o, ho, h⟩
      · obtain ⟨o, ho, h⟩ := hB
        exact Or.inr ⟨o, ho, h⟩
  have hnodup : (keys (IntGauge.runOps
      (Gauge.Allocate ℤ F name fns md) ops).cells).Nodup :=
    IntGauge.nodup_keys_runOps ops (by simp [Gauge.Allocate, keys])
  have htf : (keys (IntGauge.runOps
      (Gauge.Allocate ℤ F name fns md) ops).cells).toFinset = {A, B} := by
    ext x
    simp [List.mem_toFinset, hmem]
  have hlen : (keys (IntGauge.runOps
      (Gauge.Allocate ℤ F name fns md) ops).cells).length = 2 := by
    rw [← List.toFinset_card_of_nodup hnodup, htf]
    exact Finset.card_pair hAB
  refine ⟨⟨?_, ?_, ?_⟩, by decide⟩
  · have : ((IntGauge.runOps (Gauge.Allocate ℤ F name fns md) ops).Collect
        render).gauges.length = (keys (IntGauge.runOps
        (Gauge.Allocate ℤ F name fns md) ops).cells).length := by
      simp [Gauge.Collect, keys]
    rw [this, hlen]
  · exact keys_mem_exists_entry _ render ((hmem A).2 (Or.inl rfl))
  · exact keys_mem_exists_entry _ render ((hmem B).2 (Or.inr rfl))

/-- Witness for C3 at A = "a", B = "b" and the concrete scenario's
operation list. -/
theorem collect_completeness_witness :
    (("a" : String) ≠ ("b")) ∧
    (((IntGauge.runOps (Gauge.Allocate ℤ String ("m") [("f")] ⟨("d")⟩)
        [GaugeOp.set 10 ("a"), GaugeOp.incrementBy 5 ("a"),
          GaugeOp.set 3 ("b")]).Collect renderStringField).gauges.length = 2) := by
  refine ⟨by decide, ?_⟩
  have h := collect_completeness (A := ("a" : String)) (B := ("b"))
    ("m") [("f")] ⟨("d")⟩ renderStringField
    [GaugeOp.set 10 ("a"), GaugeOp.incrementBy 5 ("a"), GaugeOp.set 3 ("b")]
    (by decide) (by decide) (by decide) (by decide)
  exact h.1.1

/-- Claim C4: Set(v, labels) followed immediately by Get(labels) returns
exactly v, for every representable v — for the int64 gauge any value in
the signed 64-bit range, for the double gauge any value. -/
theorem set_get_roundtrip {F : Type} [DecidableEq F] (g : Gauge ℤ F)
    (g' : Gauge ℚ F) (v : ℤ) (w : ℚ) (labels : F) (hv : isInt64 v) :
    (IntGauge.Get (IntGauge.Set g v labels) labels).1 = v ∧
    (DoubleGauge.Get (DoubleGauge.Set g' w labels) labels).1 = w := by
  constructor
  · have h := getCell_fst_withCell_same GaugeCellInt64.init
      (fun _ => GaugeCellInt64.Set v) g.cells labels
    simp only [IntGauge.Get, IntGauge.Set, Gauge.withCells, GaugeCellInt64.Get]
    rw [h]
    exact wrap64_eq_self hv
  · have h := getCell_fst_withCell_same GaugeCellDouble.init
      (fun _ => GaugeCellDouble.Set w) g'.cells labels
    simp only [DoubleGauge.Get, DoubleGauge.Set, Gauge.withCells,
      GaugeCellDouble.Get]
    rw [h]
    rfl

/-- Witness for C4 at v = 42, w = 7/2 on fresh gauges. -/
theorem set_get_roundtrip_witness :
    isInt64 42 ∧
    ((IntGauge.Get (IntGauge.Set (Gauge.Allocate ℤ String ("m") [("f")] ⟨("d")⟩)
        42 ("a")) ("a")).1 = 42 ∧
      (DoubleGauge.Get (DoubleGauge.Set (Gauge.Allocate ℚ String ("m") [("f")] ⟨("d")⟩)
        (7/2) ("a")) ("a")).1 = 7/2) :=
  ⟨by decide, set_get_roundtrip _ _ 42 (7/2) ("a") (by decide)⟩

/-- Claim C5, refuted on the floating-point half: on the integer gauge
IncrementBy(x) then DecrementBy(x) restores the prior cell value exactly
(last conjunct), and IncrementBy(3.5) then IncrementBy(-3.5) does return
the gauge to 0.0; but on the double gauge IncrementBy(3.5) then
DecrementBy(3.5) leaves 0.5 — not the prior value up to rounding — because
DecrementBy truncates its argument to `int64_t`. -/
theorem increment_decrement_inverse_behavior :
    ((DoubleGauge.Get (DoubleGauge.DecrementBy (DoubleGauge.IncrementBy
        (Gauge.Allocate ℚ Unit ("m") [] ⟨("d")⟩) 3.5 ()) 3.5 ()) ()).1 = 1/2) ∧
    ((1 : ℚ)/2 ≠ 0) ∧
    ((DoubleGauge.Get (DoubleGauge.IncrementBy (DoubleGauge.IncrementBy
        (Gauge.Allocate ℚ Unit ("m") [] ⟨("d")⟩) 3.5 ()) (-3.5) ()) ()).1 = 0) ∧
    (∀ p x : ℤ, isInt64 p →
      GaugeCellInt64.DecrementBy (GaugeCellInt64.IncrementBy p x) x = p) := by
  refine ⟨?_, by norm_num, ?_, ?_⟩
  · norm_num [DoubleGauge.Get, DoubleGauge.DecrementBy, DoubleGauge.IncrementBy,
      Gauge.Allocate, Gauge.withCells, getCell, withCell, GaugeCellDouble.Get,
      GaugeCellDouble.IncrementBy, GaugeCellDouble.DecrementBy,
      GaugeCellDouble.init, doubleToInt64, int64Neg, wrap64]
  · norm_num [DoubleGauge.Get, DoubleGauge.IncrementBy, Gauge.Allocate,
      Gauge.withCells, getCell, withCell, GaugeCellDouble.Get,
      GaugeCellDouble.IncrementBy, GaugeCellDouble.init]
  · intro p x hp
    unfold GaugeCellInt64.DecrementBy GaugeCellInt64.IncrementBy int64Neg
    apply int64_eq_of_emod (wrap64_isInt64 _) hp
    have h1 := wrap64_emod (wrap64 (p + x) + wrap64 (-x))
    have h2 := wrap64_emod (p + x)
    have h3 := wrap64_emod (-x)
    omega

/-- Witness for the integer half of C5 at prior value 7, x = 5. -/
theorem increment_decrement_inverse_behavior_witness :
    isInt64 7 ∧
    GaugeCellInt64.DecrementBy (GaugeCellInt64.IncrementBy 7 5) 5 = 7 :=
  ⟨by decide, increment_decrement_inverse_behavior.2.2.2 7 5 (by decide)⟩

/-- Claim C6: Get(labels) on a never-before-accessed label tuple returns
the value type's zero (0 for int64, 0.0 for double) and creates a cell for
that tuple that a subsequent Collect() includes as an entry (with that
tuple's display strings and value 0). -/
theorem lazy_zero_default {F : Type} [DecidableEq F] (g : Gauge ℤ F)
    (g' : Gauge ℚ F) (labels : F) (render : F → List String)
    (h : labels ∉ keys g.cells) (h' : labels ∉ keys g'.cells) :
    (IntGauge.Get g labels).1 = 0 ∧
    (∃ e ∈ ((IntGauge.Get g labels).2.Collect render).gauges,
        e.fields = render labels ∧ e.value = 0) ∧
    (DoubleGauge.Get g' labels).1 = 0 ∧
    (∃ e ∈ ((DoubleGauge.Get g' labels).2.Collect render).gauges,
        e.fields = render labels ∧ e.value = 0) := by
  refine ⟨?_, ?_, ?_, ?_⟩
  · simp only [IntGauge.Get, GaugeCellInt64.Get]
    exact getCell_fst_of_not_mem _ h
  · refine ⟨⟨render labels, 0⟩, ?_, rfl, rfl⟩
    simp only [IntGauge.Get, Gauge.Collect]
    rw [getCell_snd_of_not_mem _ h]
    simp [GaugeCellInt64.init]
  · simp only [DoubleGauge.Get, GaugeCellDouble.Get]
    exact getCell_fst_of_not_mem _ h'
  · refine ⟨⟨render labels, 0⟩, ?_, rfl, rfl⟩
    simp only [DoubleGauge.Get, Gauge.Collect]
    rw [getCell_snd_of_not_mem _ h']
    simp [GaugeCellDouble.init]

/-- Witness for C6 on fresh gauges at labels = "a". -/
theorem lazy_zero_default_witness :
    (("a" : String) ∉ keys (Gauge.Allocate ℤ String ("m") [("f")] ⟨("d")⟩).cells) ∧
    (IntGauge.Get (Gauge.Allocate ℤ String ("m") [("f")] ⟨("d")⟩) ("a")).1 = 0 ∧
    (DoubleGauge.Get (Gauge.Allocate ℚ String ("m") [("f")] ⟨("d")⟩) ("a")).1 = 0 := by
  have h := lazy_zero_default (Gauge.Allocate ℤ String ("m") [("f")] ⟨("d")⟩)
    (Gauge.Allocate ℚ String ("m") [("f")] ⟨("d")⟩) ("a") renderStringField
    (by decide) (by decide)
  exact ⟨by decide, h.1, h.2.2.1⟩

/-- Claim C7: the cell set only grows — every public operation either
leaves the existing label tuples unchanged or appends exactly one new
tuple and never removes one (for both the int64 and the double gauge),
and once a tuple has a cell, the Collect() after any further operations
still has an entry for it. -/
theorem cells_only_grow {F : Type} [DecidableEq F] :
    (∀ (g : Gauge ℤ F) (o : GaugeOp ℤ F),
      (keys (IntGauge.applyOp g o).cells = keys g.cells ∨
        keys (IntGauge.applyOp g o).cells = keys g.cells ++ [o.labels]) ∧
      ∀ l ∈ keys g.cells, l ∈ keys (IntGauge.applyOp g o).cells) ∧
    (∀ (g : Gauge ℤ F) (l : F), l ∈ keys g.cells →
      ∀ (ops : List (GaugeOp ℤ F)) (render : F → List String),
        ∃ v, (⟨render l, v⟩ : CollectedMetric.Metric ℤ) ∈
          ((IntGauge.runOps g ops).Collect render).gauges) ∧
    (∀ (g : Gauge ℚ F) (o : GaugeOp ℚ F),
      (keys (DoubleGauge.applyOp g o).cells = keys g.cells ∨
        keys (DoubleGauge.applyOp g o).cells = keys g.cells ++ [o.labels]) ∧
      ∀ l ∈ keys g.cells, l ∈ keys (DoubleGauge.applyOp g o).cells) := by
  refine ⟨fun g o => ⟨?_, fun l hl => ?_⟩, fun g l hl ops render => ?_,
    fun g o => ⟨?_, fun l hl => ?_⟩⟩
  · rw [IntGauge.keys_applyOp]
    by_cases hm : o.labels ∈ keys g.cells
    · rw [if_pos hm]
      exact Or.inl rfl
    · rw [if_neg hm]
      exact Or.inr rfl
  · exact (IntGauge.mem_keys_applyOp g o l).2 (Or.inl hl)
  · exact keys_mem_exists_entry _ render
      ((IntGauge.mem_keys_runOps g ops l).2 (Or.inl hl))
  · rw [DoubleGauge.keys_applyOp_double]
    by_cases hm : o.labels ∈ keys g.cells
    · rw [if_pos hm]
      exact Or.inl rfl
    · rw [if_neg hm]
      exact Or.inr rfl
  · exact (DoubleGauge.mem_keys_applyOp_double g o l).2 (Or.inl hl)

/-- Witness for C7: a gauge holding a cell for "a" keeps it across a
Set(3, "b") and the later Collect() still carries an "a" entry. -/
theorem cells_only_grow_witness :
    (("a" : String) ∈ keys (IntGauge.Set
        (Gauge.Allocate ℤ String ("m") [("f")] ⟨("d")⟩) 5 ("a")).cells ∧
      ("a" : String) ∈ keys (IntGauge.applyOp (IntGauge.Set
        (Gauge.Allocate ℤ String ("m") [("f")] ⟨("d")⟩) 5 ("a"))
        (GaugeOp.set 3 ("b"))).cells) ∧
    ∃ v, (⟨[("a")], v⟩ : CollectedMetric.Metric ℤ) ∈
      ((IntGauge.runOps (IntGauge.Set
          (Gauge.Allocate ℤ String ("m") [("f")] ⟨("d")⟩) 5 ("a"))
        [GaugeOp.set 3 ("b")]).Collect renderStringField).gauges := by
  constructor
  · exact ⟨by decide,
      (cells_only_grow.1 (IntGauge.Set
          (Gauge.Allocate ℤ String ("m") [("f")] ⟨("d")⟩) 5 ("a"))
        (GaugeOp.set 3 ("b"))).2 ("a") (by decide)⟩
  · exact cells_only_grow.2.1 (IntGauge.Set
        (Gauge.Allocate ℤ String ("m") [("f")] ⟨("d")⟩) 5 ("a"))
      ("a") (by decide) [GaugeOp.set 3 ("b")] renderStringField

/-- Claim C8: after any sequence of operations on a gauge constructed with
a given name, field names and metadata, Collect() returns a snapshot whose
tag is "gauge", whose name, field names (in declared order) and metadata
are those fixed at construction, and whose entries are exactly one per
existing cell, each holding the per-field display strings of its label
tuple and that cell's current value — for both value types. -/
theorem collect_snapshot_shape {F : Type} [DecidableEq F] (name : String)
    (fns : List String) (md : MetricMetadata) (render : F → List String)
    (ops : List (GaugeOp ℤ F)) (ops' : List (GaugeOp ℚ F)) :
    (((IntGauge.runOps (Gauge.Allocate ℤ F name fns md) ops).Collect
        render).tag = ("gauge") ∧
      ((IntGauge.runOps (Gauge.Allocate ℤ F name fns md) ops).Collect
        render).metric_name = name ∧
      ((IntGauge.runOps (Gauge.Allocate ℤ F name fns md) ops).Collect
        render).field_names = fns ∧
      ((IntGauge.runOps (Gauge.Allocate ℤ F name fns md) ops).Collect
        render).metadata = md ∧
      ((IntGauge.runOps (Gauge.Allocate ℤ F name fns md) ops).Collect
        render).gauges = (IntGauge.runOps (Gauge.Allocate ℤ F name fns md)
          ops).cells.map (fun kv => ⟨render kv.1, kv.2⟩) ∧
      ((IntGauge.runOps (Gauge.Allocate ℤ F name fns md) ops).Collect
        render).gauges.length = (IntGauge.runOps
          (Gauge.Allocate ℤ F name fns md) ops).cells.length) ∧
    (((DoubleGauge.runOps (Gauge.Allocate ℚ F name fns md) ops').Collect
        render).tag = ("gauge") ∧
      ((DoubleGauge.runOps (Gauge.Allocate ℚ F name fns md) ops').Collect
        render).metric_name = name ∧
      ((DoubleGauge.runOps (Gauge.Allocate ℚ F name fns md) ops').Collect
        render).field_names = fns ∧
      ((DoubleGauge.runOps (Gauge.Allocate ℚ F name fns md) ops').Collect
        render).metadata = md ∧
      ((DoubleGauge.runOps (Gauge.Allocate ℚ F name fns md) ops').Collect
        render).gauges = (DoubleGauge.runOps (Gauge.Allocate ℚ F name fns md)
          ops').cells.map (fun kv => ⟨render kv.1, kv.2⟩) ∧
      ((DoubleGauge.runOps (Gauge.Allocate ℚ F name fns md) ops').Collect
        render).gauges.length = (DoubleGauge.runOps
          (Gauge.Allocate ℚ F name fns md) ops').cells.length) := by
  have hi := IntGauge.runOps_preserves_header (Gauge.Allocate ℤ F name fns md) ops
  have hd := DoubleGauge.runOps_preserves_header_double (Gauge.Allocate ℚ F name fns md) ops'
  refine ⟨⟨rfl, ?_, ?_, ?_, rfl, by simp [Gauge.Collect]⟩,
    ⟨rfl, ?_, ?_, ?_, rfl, by simp [Gauge.Collect]⟩⟩
  · exact hi.1
  · exact hi.2.1
  · exact hi.2.2
  · exact hd.1
  · exact hd.2.1
  · exact hd.2.2

/-- Claim C9: updating one cell never modifies any other — for distinct
label tuples A ≠ B, Set(v, A) leaves the value returned by Get(B)
unchanged, for both value types. -/
theorem cell_isolation {F : Type} [DecidableEq F] (g : Gauge ℤ F)
    (g' : Gauge ℚ F) (v : ℤ) (w : ℚ) (A B : F) (h : A ≠ B) :
    (IntGauge.Get (IntGauge.Set g v A) B).1 = (IntGauge.Get g B).1 ∧
    (DoubleGauge.Get (DoubleGauge.Set g' w A) B).1 = (DoubleGauge.Get g' B).1 := by
  constructor
  · simp only [IntGauge.Get, IntGauge.Set, Gauge.withCells, GaugeCellInt64.Get]
    exact getCell_fst_withCell_other _ _ _ h.symm
  · simp only [DoubleGauge.Get, DoubleGauge.Set, Gauge.withCells,
      GaugeCellDouble.Get]
    exact getCell_fst_withCell_other _ _ _ h.symm

/-- Witness for C9 at A = "a", B = "b" on gauges where "b" holds 9 / 9.0. -/
theorem cell_isolation_witness :
    (("a" : String) ≠ ("b")) ∧
    (IntGauge.Get (IntGauge.Set (IntGauge.Set
        (Gauge.Allocate ℤ String ("m") [("f")] ⟨("d")⟩) 9 ("b")) 5 ("a")) ("b")).1 =
      (IntGauge.Get (IntGauge.Set
        (Gauge.Allocate ℤ String ("m") [("f")] ⟨("d")⟩) 9 ("b")) ("b")).1 :=
  ⟨by decide,
    (cell_isolation (IntGauge.Set (Gauge.Allocate ℤ String ("m") [("f")] ⟨("d")⟩)
        9 ("b"))
      (Gauge.Allocate ℚ String ("m") [("f")] ⟨("d")⟩) 5 (7/2) ("a") ("b")
      (by decide)).1⟩

/-- Claim C10: on the int64 specialization IncrementBy and DecrementBy
never fail — the new value is congruent to prior + v (resp. prior - v)
modulo 2^64, lies in the signed 64-bit range, is the unique such integer,
and Get returns exactly it; in particular INT64_MAX + 1 wraps to
INT64_MIN. -/
theorem int64_wrapping (p v : ℤ) :
    (GaugeCellInt64.IncrementBy p v % 2 ^ 64 = (p + v) % 2 ^ 64 ∧
      isInt64 (GaugeCellInt64.IncrementBy p v) ∧
      GaugeCellInt64.Get (GaugeCellInt64.IncrementBy p v) =
        GaugeCellInt64.IncrementBy p v) ∧
    (GaugeCellInt64.DecrementBy p v % 2 ^ 64 = (p - v) % 2 ^ 64 ∧
      isInt64 (GaugeCellInt64.DecrementBy p v)) ∧
    (∀ w : ℤ, isInt64 w → w % 2 ^ 64 = (p + v) % 2 ^ 64 →
      w = GaugeCellInt64.IncrementBy p v) ∧
    GaugeCellInt64.IncrementBy 9223372036854775807 1 = -9223372036854775808 := by
  refine ⟨⟨wrap64_emod _, wrap64_isInt64 _, rfl⟩, ⟨?_, wrap64_isInt64 _⟩,
    ?_, by decide⟩
  · show wrap64 (p + wrap64 (-v)) % 2 ^ 64 = (p - v) % 2 ^ 64
    have h1 := wrap64_emod (p + wrap64 (-v))
    have h2 := wrap64_emod (-v)
    omega
  · intro w hw hmod
    refine int64_eq_of_emod hw (wrap64_isInt64 _) ?_
    rw [hmod]
    exact (wrap64_emod _).symm

/-- Witness for C10's uniqueness conjunct at the INT64_MAX + 1 overflow. -/
theorem int64_wrapping_witness :
    isInt64 (-9223372036854775808 : ℤ) ∧
    (-9223372036854775808 : ℤ) =
      GaugeCellInt64.IncrementBy 9223372036854775807 1 :=
  ⟨by decide, (int64_wrapping 9223372036854775807 1).2.2.1
    (-9223372036854775808) (by decide) (by decide)⟩

end TensorstoreGauge
